import Mathlib

/-!
Shallow embedding of `OLD_lot_size_regression_analysis.py` over exact rational
arithmetic.

The script is a one-shot pipeline: an embedded 11-row dataset of comparable
property sales, three nested ordinary-least-squares fits (Model 1: intercept +
lot; Model 2: intercept + building + lot; Model 3: intercept + building + lot +
renovation), fit statistics (R-squared = 1 - SS_res/SS_tot), per-observation
residuals and percent errors, a percentage-based adjustment heuristic, and a
verdict comparing the Model 3 lot coefficient against the 100..200 range.

Design matrices are represented by their COLUMN lists (the source builds them
with `np.column_stack`), so a matrix-vector product is a linear combination of
columns (`lincomb`).  `np.linalg.lstsq(A, y, rcond=None)` is embedded as the
exact minimum-norm least-squares solution: it solves the always-consistent
system (Aᵀ A Aᵀ) z = Aᵀ y by Gaussian elimination (free variables set to 0)
and returns β = Aᵀ z.  Any particular solution z yields the same β: if
AᵀAAᵀz₁ = AᵀAAᵀz₂ = Aᵀy then v = Aᵀ(z₁-z₂) satisfies AᵀAv = 0, hence
‖Av‖² = 0, hence Av = 0, so v lies in both the row space and the null space of
A and is 0; and β = Aᵀz satisfies the normal equations with β in range(Aᵀ),
which characterises the minimum-norm least-squares solution — exactly the
value `np.linalg.lstsq` computes (up to floating-point rounding).
-/

namespace HousingCalc

attribute [local semireducible] Rat.add Rat.mul Rat.inv Rat.sub Rat.ofScientific

set_option maxRecDepth 1000000

/-- One comparable sale, mirroring the record literals of `data`
(lines 16-28 of the source). -/
structure Observation where
  address : String
  building_sqft : ℚ
  lot_sqft : ℚ
  price : ℚ
  renovated : Bool
  sale_date : String
deriving DecidableEq, Repr

/-- The embedded dataset literal (source lines 16-28), with the arithmetic
expressions of the source kept verbatim. -/
def data : List Observation := [
  { address := "104 Brooklyn Ave", building_sqft := 16*40*4, lot_sqft := 16*72.5, price := 2285000, renovated := true, sale_date := "7/25/2025" },
  { address := "843 Prospect Pl", building_sqft := 18.75*50*4, lot_sqft := 18.75*91, price := 2530000, renovated := true, sale_date := "11/4/2025" },
  { address := "674 Saint Marks Ave", building_sqft := 20*50*5, lot_sqft := 20*125.29, price := 2875000, renovated := true, sale_date := "3/21/2025" },
  { address := "1323 Dean St", building_sqft := 20*38*5, lot_sqft := 20*107.21, price := 2700000, renovated := true, sale_date := "1/7/2025" },
  { address := "854 Prospect Place", building_sqft := 20*45*4, lot_sqft := 20*140.58, price := 2050000, renovated := false, sale_date := "11/19/2024" },
  { address := "845 Prospect Place", building_sqft := 18.75*50*4, lot_sqft := 18.75*91, price := 2650000, renovated := true, sale_date := "4/18/2024" },
  { address := "1113 Bergen St", building_sqft := 20*40*4, lot_sqft := 20*100, price := 2700000, renovated := true, sale_date := "1/9/2024" },
  { address := "1290 Pacific St", building_sqft := 30*45*4, lot_sqft := 50*114, price := 3300000, renovated := true, sale_date := "8/26/2024" },
  { address := "1354 Pacific St", building_sqft := 20*40*5, lot_sqft := 20*100, price := 2450000, renovated := true, sale_date := "4/10/2024" },
  { address := "1352 Pacific St", building_sqft := 20*50*4.5, lot_sqft := 20*100, price := 2622500, renovated := true, sale_date := "7/16/2025" },
  { address := "1306 Dean St", building_sqft := 20*50*4, lot_sqft := 20*114.42, price := 1980000, renovated := false, sale_date := "4/5/2024" }
]

/-- Embedding of `df = pd.DataFrame(data)` (source line 30): constructing the table performs
no validation whatsoever — it simply materialises the given records. -/
def mkDataFrame (rows : List Observation) : List Observation := rows

/-- The table the pipeline works on. -/
def df : List Observation := mkDataFrame data

/-! ## Exact vector arithmetic -/

/-- Dot product of two rational vectors. -/
def dotp (a b : List ℚ) : ℚ := (List.zipWith (fun x y => x * y) a b).sum

/-- Pointwise sum. -/
def vecAdd (a b : List ℚ) : List ℚ := List.zipWith (fun x y => x + y) a b

/-- Pointwise difference. -/
def vecSub (a b : List ℚ) : List ℚ := List.zipWith (fun x y => x - y) a b

/-- The zero vector of length `n`. -/
def zeroVec (n : Nat) : List ℚ := List.replicate n 0

/-- The all-ones vector of length `n` (`np.ones(len(df))`, source line 95). -/
def onesVec (n : Nat) : List ℚ := List.replicate n 1

/-- Linear combination of columns: `lincomb n bs cs = Σⱼ bsⱼ • csⱼ`, the
column-representation form of the matrix-vector product `X @ bs`. -/
def lincomb (n : Nat) : List ℚ → List (List ℚ) → List ℚ
  | b :: bs, c :: cs => vecAdd (c.map (fun v => b * v)) (lincomb n bs cs)
  | _, _ => zeroVec n

/-- Arithmetic mean of a list (`np.mean`). -/
def meanQ (l : List ℚ) : ℚ := l.sum / (l.length : ℚ)

/-! ## Gaussian elimination: a particular solution of a linear system

A system is a list of rows `(coefficients, rhs)`; `solveLin w rows` returns a
particular solution of the system (free variables set to `0`), or `none` when
elimination exposes an inconsistent equation `0 = b` with `b ≠ 0`. -/

/-- Select the first row whose leading coefficient is nonzero, returning it
together with the remaining rows. -/
def pickPivot : List (List ℚ × ℚ) → Option ((List ℚ × ℚ) × List (List ℚ × ℚ))
  | [] => none
  | r :: rs =>
    if r.1.headD 0 ≠ 0 then some (r, rs)
    else (pickPivot rs).map (fun pr => (pr.1, r :: pr.2))

/-- Gaussian elimination computing a particular solution, eliminating variables
left to right; a variable with no available pivot is free and set to `0`. -/
def solveLin : Nat → List (List ℚ × ℚ) → Option (List ℚ)
  | 0, rows => if rows.all (fun r => decide (r.2 = 0)) then some [] else none
  | w + 1, rows =>
    match pickPivot rows with
    | none =>
        (solveLin w (rows.map (fun r => (r.1.tail, r.2)))).map (fun xs => 0 :: xs)
    | some (p, rest) =>
        let a := p.1.headD 0
        (solveLin w (rest.map (fun r =>
            let lam := r.1.headD 0 / a
            (vecSub r.1.tail (p.1.tail.map (fun v => lam * v)), r.2 - lam * p.2)))).map
          (fun xs => (p.2 - dotp p.1.tail xs) / a :: xs)

/-- Embedding of `np.linalg.lstsq(A, y, rcond=None)` (source lines 98 and 142) over exact
rationals: the minimum-norm least-squares solution of `A β ≈ y`, where `A` is
given by its columns `cols` (each of length `n`).  Solves the consistent system
`(AᵀAAᵀ) z = Aᵀ y` and returns `β = Aᵀ z`; see the header comment for why any
particular solution `z` yields the unique minimum-norm `β`. -/
def lstsq (n : Nat) (cols : List (List ℚ)) (y : List ℚ) : Option (List ℚ) :=
  (solveLin n (cols.map (fun c =>
      (lincomb n (cols.map (fun c2 => dotp c c2)) cols, dotp c y)))).map
    (fun z => cols.map (fun c => dotp c z))

/-! ## The pipeline's concrete fits -/

/-- Source line 58: `X_lot = df['lot_sqft'].values`. -/
def X_lot : List ℚ := df.map (fun o => o.lot_sqft)

/-- Source line 59: `y = df['price'].values`. -/
def y : List ℚ := df.map (fun o => o.price)

/-- Embedding of `stats.linregress(x, y)` (source line 62), restricted to the outputs the
claims use: `(slope, intercept, r_value²)`.  scipy computes
`slope = Sxy/Sxx`, `intercept = ȳ - slope·x̄`, and `r = Sxy/√(Sxx·Syy)`
guarded by `r = 0.0` when `Sxx = 0` or `Syy = 0`; the source only ever uses
`r_value**2 = Sxy²/(Sxx·Syy)`, which is rational, so the embedding returns the
square directly.  The p-value and standard error involve irrational functions
and are used only for printing; they are not modelled. -/
def linregress (x yv : List ℚ) : ℚ × ℚ × ℚ :=
  let xm := meanQ x
  let ym := meanQ yv
  let sxx := dotp (x.map (fun v => v - xm)) (x.map (fun v => v - xm))
  let syy := dotp (yv.map (fun v => v - ym)) (yv.map (fun v => v - ym))
  let sxy := dotp (x.map (fun v => v - xm)) (yv.map (fun v => v - ym))
  let slope := sxy / sxx
  (slope, ym - slope * xm, if sxx ≠ 0 ∧ syy ≠ 0 then sxy ^ 2 / (sxx * syy) else 0)

/-- Model 1 slope (`slope`, source line 62). -/
def slope : ℚ := (linregress X_lot y).1

/-- Model 1 intercept (`intercept`, source line 62). -/
def intercept : ℚ := (linregress X_lot y).2.1

/-- Model 1 reported R-squared (`r_value**2`, source line 66). -/
def r_value_sq : ℚ := (linregress X_lot y).2.2

/-- Model 1 fitted values `intercept + slope * x` for every observation. -/
def y_pred_lot : List ℚ := X_lot.map (fun v => intercept + slope * v)

/-- Columns of `X_multi_with_intercept = np.column_stack([np.ones(len(df)),
building_sqft, lot_sqft])` (source lines 92-95). -/
def X_multi_with_intercept : List (List ℚ) :=
  [onesVec df.length, df.map (fun o => o.building_sqft), X_lot]

/-- Model 2 coefficient vector `coefficients` (source line 98).  The source unconditionally
destructures the `lstsq` result; the embedding defaults to `[]` on the
(unreached) failure branch. -/
def coefficients : List ℚ := (lstsq df.length X_multi_with_intercept y).getD []

/-- Source line 105: `y_pred = X_multi_with_intercept @ coefficients`. -/
def y_pred : List ℚ := lincomb df.length coefficients X_multi_with_intercept

/-- Source line 106: `ss_res = np.sum((y - y_pred) ** 2)`. -/
def ss_res : ℚ := ((vecSub y y_pred).map (fun v => v ^ 2)).sum

/-- Source line 107: `ss_tot = np.sum((y - np.mean(y)) ** 2)`. -/
def ss_tot : ℚ := ((y.map (fun v => (v - meanQ y) ^ 2))).sum

/-- Source line 108: `r_squared = 1 - (ss_res / ss_tot)`. -/
def r_squared : ℚ := 1 - ss_res / ss_tot

/-- Columns of `X_with_reno_intercept` (source lines 132-139): intercept,
building, lot, and renovation indicator (`astype(int)`). -/
def X_with_reno_intercept : List (List ℚ) :=
  [onesVec df.length, df.map (fun o => o.building_sqft), X_lot,
   df.map (fun o => if o.renovated then (1 : ℚ) else 0)]

/-- Model 3 coefficient vector `coefficients_reno` (source line 142). -/
def coefficients_reno : List ℚ := (lstsq df.length X_with_reno_intercept y).getD []

/-- Source line 150: `y_pred_reno = X_with_reno_intercept @ coefficients_reno`. -/
def y_pred_reno : List ℚ := lincomb df.length coefficients_reno X_with_reno_intercept

/-- Source line 151: `ss_res_reno`. -/
def ss_res_reno : ℚ := ((vecSub y y_pred_reno).map (fun v => v ^ 2)).sum

/-- Source line 152: `ss_tot_reno`. -/
def ss_tot_reno : ℚ := ((y.map (fun v => (v - meanQ y) ^ 2))).sum

/-- Source line 153: `r_squared_reno = 1 - (ss_res_reno / ss_tot_reno)`. -/
def r_squared_reno : ℚ := 1 - ss_res_reno / ss_tot_reno

/-- Source line 177: `residuals_values = y - y_pred_reno`. -/
def residuals_values : List ℚ := vecSub y y_pred_reno

/-- Per-observation percent error `(residual / actual) * 100`
(source line 190). -/
def pct_errors : List ℚ :=
  List.zipWith (fun r a => r / a * 100) residuals_values y

/-- Source line 146: `lot_coef_reno = coefficients_reno[2]`. -/
def lot_coef_reno : ℚ := coefficients_reno.getD 2 0

/-- The Model 1 R-squared recomputed as `1 - SS_res/SS_tot` from the general
least-squares fit of the single-predictor design `[1, lot_sqft]` (the quantity
claim C1 compares; the program itself reports `r_value**2` for Model 1). -/
def r_squared_lot_only : ℚ :=
  let cols := [onesVec df.length, X_lot]
  let beta := (lstsq df.length cols y).getD []
  1 - ((vecSub y (lincomb df.length beta cols)).map (fun v => v ^ 2)).sum / ss_tot

/-- Source line 222: `pct_adjustment = (diff / 500) * 0.01 * typical_base_value`. -/
def pct_adjustment (diff typical_base_value : ℚ) : ℚ :=
  (diff / 500) * 0.01 * typical_base_value

/-- The final recommendation (source line 241): the richest model's lot
coefficient. -/
def recommended_adjustment : ℚ := lot_coef_reno

/-- Categorical verdict of the recommendation section. -/
inductive Verdict where
  | withinRange
  | belowRange
  | aboveRange
deriving DecidableEq, Repr

/-- The verdict logic of source lines 251-256: `if 100 <= c <= 200` confirmed,
`elif c < 100` lower, `else` higher. -/
def verdict (c : ℚ) : Verdict :=
  if 100 ≤ c ∧ c ≤ 200 then .withinRange
  else if c < 100 then .belowRange
  else .aboveRange

/-! ## Least-squares optimality: normal equations -/

/-- The normal equations for the design given by `cols` (each column of length
`n`), response `y`, and coefficient vector `β`: the residual of the fitted
values is orthogonal to every column.  For a least-squares problem this
characterises the minimisers of `‖Aβ - y‖²`. -/
def NormalEq (n : Nat) (cols : List (List ℚ)) (yv β : List ℚ) : Prop :=
  ∀ c ∈ cols, dotp c (lincomb n β cols) = dotp c yv

/-- The generic `R² = 1 - SS_res/SS_tot` computation of source lines 104-108
and 149-153, for an arbitrary design (given by columns) and coefficient
vector: predictions are `X @ β`, `SS_res` the sum of squared residuals,
`SS_tot` the sum of squared deviations from the mean response. -/
def r_squared_of (n : Nat) (cols : List (List ℚ)) (yv β : List ℚ) : ℚ :=
  1 - ((vecSub yv (lincomb n β cols)).map (fun t => t ^ 2)).sum /
      ((yv.map (fun t => (t - meanQ yv) ^ 2))).sum

/-! ## Dot-product toolkit -/

theorem dotp_nil_left (w : List ℚ) : dotp [] w = 0 := rfl

theorem dotp_nil_right (v : List ℚ) : dotp v [] = 0 := by
  cases v <;> rfl

theorem dotp_cons (a : ℚ) (as : List ℚ) (b : ℚ) (bs : List ℚ) :
    dotp (a :: as) (b :: bs) = a * b + dotp as bs := by
  simp [dotp]

theorem dotp_comm (a b : List ℚ) : dotp a b = dotp b a := by
  induction a generalizing b with
  | nil => cases b <;> rfl
  | cons x xs ih =>
    cases b with
    | nil => rfl
    | cons z zs => simp [dotp_cons, ih, mul_comm]

theorem dotp_map_mul_left (c : ℚ) (l w : List ℚ) :
    dotp (l.map (fun v => c * v)) w = c * dotp l w := by
  induction l generalizing w with
  | nil => simp [dotp]
  | cons x xs ih =>
    cases w with
    | nil => simp [dotp_nil_right]
    | cons z zs => simp [dotp_cons, ih]; ring

theorem dotp_map_mul_right (c : ℚ) (w l : List ℚ) :
    dotp w (l.map (fun v => c * v)) = c * dotp w l := by
  rw [dotp_comm, dotp_map_mul_left, dotp_comm]

theorem dotp_zeroVec_left (n : Nat) (w : List ℚ) : dotp (zeroVec n) w = 0 := by
  induction n generalizing w with
  | zero => rfl
  | succ m ih =>
    cases w with
    | nil => exact dotp_nil_right _
    | cons z zs => simp [zeroVec, List.replicate_succ, dotp_cons] at ih ⊢; exact ih zs

theorem dotp_zeroVec_right (n : Nat) (w : List ℚ) : dotp w (zeroVec n) = 0 := by
  rw [dotp_comm, dotp_zeroVec_left]

theorem dotp_vecAdd_left (u v w : List ℚ) (h : u.length = v.length) :
    dotp (vecAdd u v) w = dotp u w + dotp v w := by
  induction u generalizing v w with
  | nil =>
    have : v = [] := by simpa using h.symm
    subst this; simp [vecAdd, dotp]
  | cons x xs ih =>
    cases v with
    | nil => simp at h
    | cons z zs =>
      cases w with
      | nil => simp [dotp_nil_right]
      | cons a as =>
        simp only [vecAdd, List.zipWith_cons_cons, dotp_cons] at *
        rw [ih zs as (by simpa using h)]
        ring

theorem dotp_vecSub_left (u v w : List ℚ) (h : u.length = v.length) :
    dotp (vecSub u v) w = dotp u w - dotp v w := by
  induction u generalizing v w with
  | nil =>
    have : v = [] := by simpa using h.symm
    subst this; simp [vecSub, dotp]
  | cons x xs ih =>
    cases v with
    | nil => simp at h
    | cons z zs =>
      cases w with
      | nil => simp [dotp_nil_right]
      | cons a as =>
        simp only [vecSub, List.zipWith_cons_cons, dotp_cons] at *
        rw [ih zs as (by simpa using h)]
        ring

theorem dotp_vecAdd_right (w u v : List ℚ) (h : u.length = v.length) :
    dotp w (vecAdd u v) = dotp w u + dotp w v := by
  rw [dotp_comm, dotp_vecAdd_left u v w h, dotp_comm u w, dotp_comm v w]

theorem dotp_onesVec_left (n : Nat) (w : List ℚ) (h : w.length = n) :
    dotp (onesVec n) w = w.sum := by
  induction n generalizing w with
  | zero =>
    have : w = [] := List.length_eq_zero.mp h
    subst this; rfl
  | succ m ih =>
    cases w with
    | nil => simp at h
    | cons a as =>
      simp only [onesVec, List.replicate_succ, dotp_cons, List.sum_cons] at *
      rw [ih as (by simpa using h)]
      ring

theorem dotp_onesVec_right (n : Nat) (w : List ℚ) (h : w.length = n) :
    dotp w (onesVec n) = w.sum := by
  rw [dotp_comm, dotp_onesVec_left n w h]

/-! ## Basic facts about `lincomb` -/

theorem lincomb_length (n : Nat) (bs : List ℚ) (cs : List (List ℚ))
    (h : ∀ c ∈ cs, c.length = n) : (lincomb n bs cs).length = n := by
  induction bs generalizing cs with
  | nil => cases cs <;> simp [lincomb, zeroVec]
  | cons b bs ih =>
    cases cs with
    | nil => simp [lincomb, zeroVec]
    | cons c cs =>
      have hc : c.length = n := h c (by simp)
      have hrest : (lincomb n bs cs).length = n := ih cs (fun c2 hc2 => h c2 (by simp [hc2]))
      simp [lincomb, vecAdd, hc, hrest]

theorem dotp_lincomb_left (n : Nat) (g : List ℚ) (cs : List (List ℚ)) (z : List ℚ)
    (hc : ∀ c ∈ cs, c.length = n) :
    dotp (lincomb n g cs) z = dotp g (cs.map (fun c => dotp c z)) := by
  induction g generalizing cs with
  | nil => cases cs <;> simp [lincomb, dotp_zeroVec_left, dotp_nil_left]
  | cons b bs ih =>
    cases cs with
    | nil => simp [lincomb, dotp_zeroVec_left, dotp_nil_right]
    | cons c cs =>
      have hrest : ∀ c2 ∈ cs, c2.length = n := fun c2 hc2 => hc c2 (by simp [hc2])
      have hlen : (c.map (fun v => b * v)).length = (lincomb n bs cs).length := by
        rw [List.length_map, hc c (by simp), lincomb_length n bs cs hrest]
      calc dotp (lincomb n (b :: bs) (c :: cs)) z
          = dotp (c.map (fun v => b * v)) z + dotp (lincomb n bs cs) z := by
            simpa [lincomb] using dotp_vecAdd_left _ _ z hlen
        _ = b * dotp c z + dotp bs (cs.map (fun c2 => dotp c2 z)) := by
            rw [dotp_map_mul_left, ih cs hrest]
        _ = dotp (b :: bs) ((c :: cs).map (fun c2 => dotp c2 z)) := by
            simp [dotp_cons]

/-- Dotting against the Gram row: dotting the column `c` with a linear
combination of the columns is the dot of the Gram entries with the
coefficients. -/
theorem dotp_lincomb_right (n : Nat) (c : List ℚ) (cs : List (List ℚ)) (bs : List ℚ)
    (hc : ∀ c2 ∈ cs, c2.length = n) :
    dotp c (lincomb n bs cs) = dotp (cs.map (fun c2 => dotp c c2)) bs := by
  induction bs generalizing cs with
  | nil => cases cs <;> simp [lincomb, dotp_zeroVec_right, dotp_nil_right]
  | cons b bs ih =>
    cases cs with
    | nil => simp [lincomb, dotp_zeroVec_right, dotp_nil_left]
    | cons c2 cs =>
      have hrest : ∀ c3 ∈ cs, c3.length = n := fun c3 hc3 => hc c3 (by simp [hc3])
      have hlen : (c2.map (fun v => b * v)).length = (lincomb n bs cs).length := by
        rw [List.length_map, hc c2 (by simp), lincomb_length n bs cs hrest]
      calc dotp c (lincomb n (b :: bs) (c2 :: cs))
          = dotp c (c2.map (fun v => b * v)) + dotp c (lincomb n bs cs) := by
            simpa [lincomb] using dotp_vecAdd_right c _ _ hlen
        _ = b * dotp c c2 + dotp (cs.map (fun c3 => dotp c c3)) bs := by
            rw [dotp_map_mul_right, ih cs hrest]
        _ = dotp ((c2 :: cs).map (fun c3 => dotp c c3)) (b :: bs) := by
            simp [dotp_cons, mul_comm]

/-! ## Soundness of the elimination solver -/

theorem pickPivot_spec (rows : List (List ℚ × ℚ)) (p : List ℚ × ℚ)
    (rest : List (List ℚ × ℚ)) (h : pickPivot rows = some (p, rest)) :
    p ∈ rows ∧ p.1.headD 0 ≠ 0 ∧ (∀ r ∈ rows, r = p ∨ r ∈ rest) ∧
      (∀ r ∈ rest, r ∈ rows) := by
  induction rows generalizing rest with
  | nil => simp [pickPivot] at h
  | cons r0 rs ih =>
    by_cases h0 : r0.1.headD 0 ≠ 0
    · rw [pickPivot, if_pos h0] at h
      obtain ⟨h1, h2⟩ := Prod.mk.injEq .. ▸ Option.some.injEq .. ▸ h
      subst h1; subst h2
      refine ⟨by simp, h0, fun r hr => ?_, fun r hr => by simp [hr]⟩
      rcases List.mem_cons.mp hr with h | h
      · exact Or.inl h
      · exact Or.inr h
    · rw [pickPivot, if_neg h0] at h
      obtain ⟨pr, hrec, hmap⟩ := Option.map_eq_some'.mp h
      obtain ⟨p2, rest2⟩ := pr
      obtain ⟨h1, h2⟩ := Prod.mk.injEq .. ▸ hmap
      subst h1
      obtain ⟨hmem, hnz, hsplit, hsub⟩ := ih rest2 hrec
      subst h2
      refine ⟨by simp [hmem], hnz, fun r hr => ?_, fun r hr => ?_⟩
      · rcases List.mem_cons.mp hr with h | h
        · exact Or.inr (by simp [h])
        · rcases hsplit r h with h3 | h3
          · exact Or.inl h3
          · exact Or.inr (by simp [h3])
      · rcases List.mem_cons.mp hr with h | h
        · simp [h]
        · exact List.mem_cons_of_mem _ (hsub r h)

/-- Any solution returned by `solveLin` satisfies every equation of the input
system. -/
theorem solveLin_sound (w : Nat) :
    ∀ (rows : List (List ℚ × ℚ)) (xs : List ℚ),
    (∀ r ∈ rows, r.1.length = w) → solveLin w rows = some xs →
    xs.length = w ∧ ∀ r ∈ rows, dotp r.1 xs = r.2 := by
  induction w with
  | zero =>
    intro rows xs hlen h
    rw [solveLin] at h
    by_cases hall : rows.all (fun r => decide (r.2 = 0))
    · rw [if_pos hall] at h
      obtain rfl : ([] : List ℚ) = xs := Option.some.injEq .. ▸ h
      refine ⟨rfl, fun r hr => ?_⟩
      have h0 : r.1 = [] := List.length_eq_zero.mp (hlen r hr)
      have h2 : r.2 = 0 := by
        have := List.all_eq_true.mp hall r hr
        exact of_decide_eq_true this
      rw [h0, h2, dotp_nil_left]
    · rw [if_neg hall] at h; exact absurd h (by simp)
  | succ w ih =>
    intro rows xs hlen h
    rw [solveLin] at h
    cases hp : pickPivot rows with
    | none =>
      rw [hp] at h
      obtain ⟨xs2, hrec, hmap⟩ := Option.map_eq_some'.mp h
      subst hmap
      have hwid : ∀ r2 ∈ rows.map (fun r => (r.1.tail, r.2)), r2.1.length = w := by
        intro r2 hr2
        obtain ⟨r, hr, rfl⟩ := List.mem_map.mp hr2
        simp [List.length_tail, hlen r hr]
      obtain ⟨hxl, hsat⟩ := ih _ xs2 hwid hrec
      refine ⟨by simp [hxl], fun r hr => ?_⟩
      obtain ⟨a, as, hcons⟩ := List.exists_cons_of_ne_nil
        (List.ne_nil_of_length_pos (by rw [hlen r hr]; exact Nat.succ_pos w))
      have htail := hsat (r.1.tail, r.2) (List.mem_map_of_mem _ hr)
      rw [hcons] at htail ⊢
      simp only [List.tail_cons] at htail
      rw [dotp_cons, htail]
      ring
    | some pr =>
      obtain ⟨p, rest⟩ := pr
      rw [hp] at h
      obtain ⟨hpmem, hpnz, hsplit, hsub⟩ := pickPivot_spec rows p rest hp
      obtain ⟨xs2, hrec, hmap⟩ := Option.map_eq_some'.mp h
      subst hmap
      obtain ⟨pa, pt, hpcons⟩ := List.exists_cons_of_ne_nil
        (List.ne_nil_of_length_pos (by rw [hlen p hpmem]; exact Nat.succ_pos w))
      have hpt : pt.length = w := by
        have := hlen p hpmem; rw [hpcons] at this; simpa using this
      have hwid : ∀ r2 ∈ rest.map (fun r =>
          (vecSub r.1.tail (p.1.tail.map (fun v => r.1.headD 0 / p.1.headD 0 * v)),
            r.2 - r.1.headD 0 / p.1.headD 0 * p.2)), r2.1.length = w := by
        intro r2 hr2
        obtain ⟨r, hr, rfl⟩ := List.mem_map.mp hr2
        have h1 : r.1.tail.length = w := by
          simp [List.length_tail, hlen r (hsub r hr)]
        have h2 : (p.1.tail.map (fun v => r.1.headD 0 / p.1.headD 0 * v)).length = w := by
          rw [List.length_map, List.length_tail, hlen p hpmem]
          omega
        simp only [vecSub, List.length_zipWith, h1, h2, Nat.min_self]
      obtain ⟨hxl, hsat⟩ := ih _ xs2 hwid hrec
      have hpa : pa ≠ 0 := by rw [hpcons] at hpnz; simpa using hpnz
      have hpivot : dotp p.1 ((p.2 - dotp p.1.tail xs2) / p.1.headD 0 :: xs2) = p.2 := by
        rw [hpcons]
        simp only [List.headD_cons, List.tail_cons]
        rw [dotp_cons]
        field_simp
      refine ⟨by simp [hxl], fun r hr => ?_⟩
      rcases hsplit r hr with rfl | hrrest
      · exact hpivot
      · obtain ⟨ra, rt, hrcons⟩ := List.exists_cons_of_ne_nil
          (List.ne_nil_of_length_pos
            (by rw [hlen r (hsub r hrrest)]; exact Nat.succ_pos w))
        have helim := hsat _ (List.mem_map_of_mem _ hrrest)
        rw [hrcons, hpcons] at helim
        simp only [List.headD_cons, List.tail_cons] at helim
        have hrt : rt.length = w := by
          have := hlen r (hsub r hrrest); rw [hrcons] at this
          simpa using this
        have hlen1 : rt.length = (pt.map (fun v => ra / pa * v)).length := by
          rw [List.length_map, hpt, hrt]
        rw [dotp_vecSub_left _ _ _ hlen1, dotp_map_mul_left] at helim
        rw [hrcons, hpcons]
        simp only [List.headD_cons, List.tail_cons]
        rw [dotp_cons]
        have hexp : ra * ((p.2 - dotp pt xs2) / pa) =
            ra / pa * p.2 - ra / pa * dotp pt xs2 := by
          field_simp; ring
        rw [hexp]
        linarith [helim]

/-- Whenever the embedded `lstsq` returns a coefficient vector, that vector has
one entry per design column and satisfies the normal equations of the
least-squares problem (so it is a least-squares minimiser). -/
theorem lstsq_normalEq (n : Nat) (cols : List (List ℚ)) (yv β : List ℚ)
    (hc : ∀ c ∈ cols, c.length = n)
    (h : lstsq n cols yv = some β) :
    β.length = cols.length ∧ NormalEq n cols yv β := by
  rw [lstsq] at h
  obtain ⟨z, hz, hmap⟩ := Option.map_eq_some'.mp h
  subst hmap
  have hwid : ∀ r ∈ cols.map (fun c =>
      (lincomb n (cols.map (fun c2 => dotp c c2)) cols, dotp c yv)), r.1.length = n := by
    intro r hr
    obtain ⟨c, hcm, rfl⟩ := List.mem_map.mp hr
    exact lincomb_length n _ cols hc
  obtain ⟨hzl, hsat⟩ := solveLin_sound n _ z hwid hz
  refine ⟨by simp, fun c hcm => ?_⟩
  have hrow := hsat _ (List.mem_map_of_mem _ hcm)
  simp only [] at hrow
  rw [dotp_lincomb_left n _ cols z hc] at hrow
  rw [dotp_lincomb_right n c cols _ hc]
  exact hrow

theorem dotp_vecSub_right (w u v : List ℚ) (h : u.length = v.length) :
    dotp w (vecSub u v) = dotp w u - dotp w v := by
  rw [dotp_comm, dotp_vecSub_left u v w h, dotp_comm u w, dotp_comm v w]

/-- Shifting every response value by a constant shifts a dot product against it
by the constant times the sum of the other vector. -/
theorem dotp_map_add_right (c yv : List ℚ) (k : ℚ) (h : c.length = yv.length) :
    dotp c (yv.map (fun v => v + k)) = dotp c yv + k * c.sum := by
  induction c generalizing yv with
  | nil => simp [dotp_nil_left]
  | cons a as ih =>
    cases yv with
    | nil => simp at h
    | cons b bs =>
      simp only [List.map_cons, dotp_cons, List.sum_cons, ih bs (by simpa using h)]
      ring

theorem vecSub_eq_zero (k : Nat) (a b : List ℚ) (ha : a.length = k)
    (hb : b.length = k) (h : vecSub a b = zeroVec k) : a = b := by
  induction a generalizing b k with
  | nil =>
    cases b with
    | nil => rfl
    | cons z zs => rw [← ha] at hb; simp at hb
  | cons x xs ih =>
    cases b with
    | nil => rw [← ha] at hb; simp at hb
    | cons z zs =>
      cases k with
      | zero => simp at ha
      | succ m =>
        rw [zeroVec, List.replicate_succ] at h
        simp only [vecSub, List.zipWith_cons_cons, List.cons.injEq] at h
        obtain ⟨h1, h2⟩ := h
        have hx : x = z := by linarith [sub_eq_zero.mp h1]
        rw [hx, ih m zs (by simpa using ha) (by simpa using hb) h2]

/-- C8: for every design built as intercept column plus predictor columns whose
least-squares solution is unique (the homogeneous normal equations admit only
the zero coefficient vector), and every constant `k`, fitting the same design
to the prices shifted pointwise by `k` yields a coefficient vector whose
intercept entry grows by exactly `k` while every non-intercept coefficient is
unchanged — exactly, over exact rational arithmetic. -/
theorem c8_price_shift (n : Nat) (pcols : List (List ℚ)) (yv : List ℚ) (k : ℚ)
    (β β2 : List ℚ)
    (hp : ∀ c ∈ pcols, c.length = n)
    (hy : yv.length = n)
    (huniq : ∀ d, d.length = (onesVec n :: pcols).length →
      NormalEq n (onesVec n :: pcols) (zeroVec n) d →
      d = zeroVec (onesVec n :: pcols).length)
    (h1 : lstsq n (onesVec n :: pcols) yv = some β)
    (h2 : lstsq n (onesVec n :: pcols) (yv.map (fun v => v + k)) = some β2) :
    β2 = (β.headD 0 + k) :: β.tail := by
  have hc : ∀ c ∈ onesVec n :: pcols, c.length = n := by
    intro c hcm
    rcases List.mem_cons.mp hcm with rfl | hcm2
    · simp [onesVec]
    · exact hp c hcm2
  obtain ⟨hβl, hNE1⟩ := lstsq_normalEq n _ yv β hc h1
  obtain ⟨hβ2l, hNE2⟩ := lstsq_normalEq n _ _ β2 hc h2
  obtain ⟨b0, bt, rfl⟩ : ∃ b0 bt, β = b0 :: bt := by
    cases β with
    | nil => simp at hβl
    | cons b0 bt => exact ⟨b0, bt, rfl⟩
  have hNEs : NormalEq n (onesVec n :: pcols) (yv.map (fun v => v + k))
      ((b0 + k) :: bt) := by
    intro c hcm
    have hNE1c := hNE1 c hcm
    rw [dotp_lincomb_right n c _ _ hc] at hNE1c
    rw [dotp_lincomb_right n c _ _ hc]
    rw [List.map_cons, dotp_cons] at hNE1c ⊢
    have hsum := dotp_onesVec_right n c (hc c hcm)
    rw [dotp_map_add_right c yv k (by rw [hy, hc c hcm])]
    rw [hsum] at hNE1c ⊢
    linear_combination hNE1c
  have hdl : ((b0 + k) :: bt).length = (onesVec n :: pcols).length := by
    simpa using hβl
  have hNEd : NormalEq n (onesVec n :: pcols) (zeroVec n)
      (vecSub ((b0 + k) :: bt) β2) := by
    intro c hcm
    rw [dotp_lincomb_right n c _ _ hc,
      dotp_vecSub_right _ _ _ (by rw [hdl, hβ2l]),
      ← dotp_lincomb_right n c _ ((b0 + k) :: bt) hc,
      ← dotp_lincomb_right n c _ β2 hc,
      hNEs c hcm, hNE2 c hcm, dotp_zeroVec_right]
    ring
  have hd0 := huniq (vecSub ((b0 + k) :: bt) β2)
    (by simp [vecSub, hdl, hβ2l]) hNEd
  have heq := vecSub_eq_zero ((onesVec n :: pcols).length) ((b0 + k) :: bt) β2
    hdl hβ2l hd0
  rw [← heq]
  simp

/-- Witness for C8, at the design `[1, x]` with `x = (0, 1)`, prices `(2, 3)`
and shift `10`: the shifted fit is exactly the original fit with `10` added to
the intercept. -/
theorem c8_witness :
    lstsq 2 (onesVec 2 :: [[0, 1]]) (([2, 3] : List ℚ).map (fun v => v + 10)) =
      some ((([2, 1] : List ℚ).headD 0 + 10) :: ([2, 1] : List ℚ).tail) := by
  have h := c8_price_shift 2 [[0, 1]] [2, 3] 10 [2, 1] [12, 1]
    (by decide) (by decide)
    (by
      intro d hlen hNE
      have hl : d.length = 2 := by simpa using hlen
      obtain ⟨a, b, rfl⟩ := List.length_eq_two.mp hl
      have h1 := hNE (onesVec 2) (by simp)
      have h2 := hNE [0, 1] (by simp)
      have hov : onesVec 2 = [1, 1] := rfl
      have hzv : zeroVec 2 = [0, 0] := rfl
      rw [hov, hzv] at h1 h2
      norm_num [lincomb, vecAdd, dotp, hzv] at h1 h2
      have ha : a = 0 := by linarith
      have hb : b = 0 := by linarith
      simp [zeroVec, ha, hb])
    (by decide) (by decide)
  rw [← h]
  decide

/-! ## Scalar identities for the univariate closed form (claim C4) -/

theorem dotp_pair (p q r s : ℚ) : dotp [p, q] [r, s] = p * r + q * s := by
  simp [dotp]

theorem dotp_self_map (l : List ℚ) (f : ℚ → ℚ) :
    dotp (l.map f) (l.map f) = (l.map (fun t => f t ^ 2)).sum := by
  induction l with
  | nil => rfl
  | cons t ts ih => simp [dotp_cons, ih]; ring

theorem onesVec_sum (n : Nat) : (onesVec n).sum = (n : ℚ) := by
  simp [onesVec, List.sum_replicate]

/-- A list of nonnegative rationals containing a positive element has positive
sum. -/
theorem list_sum_pos (l : List ℚ) (h1 : ∀ t ∈ l, 0 ≤ t) (t0 : ℚ)
    (ht : t0 ∈ l) (hpos : 0 < t0) : 0 < l.sum := by
  induction l with
  | nil => simp at ht
  | cons s ss ih =>
    rcases List.mem_cons.mp ht with rfl | hmem
    · have hrest : 0 ≤ ss.sum := List.sum_nonneg (fun t htm => h1 t (by simp [htm]))
      simp only [List.sum_cons]
      linarith
    · have hs : 0 ≤ s := h1 s (by simp)
      have := ih (fun t htm => h1 t (by simp [htm])) hmem
      simp only [List.sum_cons]
      linarith

/-- A list with two distinct entries has positive centered sum of squares,
for any centering constant. -/
theorem centered_sq_sum_pos (l : List ℚ) (m a b : ℚ) (ha : a ∈ l) (hb : b ∈ l)
    (hab : a ≠ b) :
    0 < dotp (l.map (fun t => t - m)) (l.map (fun t => t - m)) := by
  rw [dotp_self_map]
  have hnn : ∀ t ∈ l.map (fun t => (t - m) ^ 2), 0 ≤ t := by
    intro t htm
    obtain ⟨s, hs, rfl⟩ := List.mem_map.mp htm
    exact sq_nonneg _
  by_cases hcase : a = m
  · have hbne : b ≠ m := fun hbm => hab (by rw [hcase, hbm])
    refine list_sum_pos _ hnn ((b - m) ^ 2) (List.mem_map_of_mem _ hb) ?_
    exact (sq_nonneg _).lt_of_ne (Ne.symm (pow_ne_zero 2 (sub_ne_zero.mpr hbne)))
  · refine list_sum_pos _ hnn ((a - m) ^ 2) (List.mem_map_of_mem _ ha) ?_
    exact (sq_nonneg _).lt_of_ne (Ne.symm (pow_ne_zero 2 (sub_ne_zero.mpr hcase)))

/-- Centered cross products in terms of raw sums. -/
theorem dotp_map_sub (x yv : List ℚ) (p q : ℚ) (h : yv.length = x.length) :
    dotp (x.map (fun t => t - p)) (yv.map (fun t => t - q)) =
      dotp x yv - q * x.sum - p * yv.sum + (x.length : ℚ) * (p * q) := by
  induction x generalizing yv with
  | nil =>
    have : yv = [] := List.length_eq_zero.mp (by simpa using h)
    subst this
    simp [dotp_nil_left]
  | cons t ts ih =>
    cases yv with
    | nil => simp at h
    | cons s ss =>
      have ihs := ih ss (by simpa using h)
      simp only [List.map_cons, dotp_cons, List.sum_cons, List.length_cons]
      rw [ihs]
      push_cast
      ring

/-- The two-column design `[1, x]` predicts `b0 + b1 * xᵢ` pointwise. -/
theorem lincomb_two (n : Nat) (b0 b1 : ℚ) (x : List ℚ) (hx : x.length = n) :
    lincomb n [b0, b1] [onesVec n, x] = x.map (fun t => b0 + b1 * t) := by
  induction x generalizing n with
  | nil =>
    subst hx
    rfl
  | cons t ts ih =>
    subst hx
    have ihs := ih ts.length rfl
    simp only [lincomb, onesVec, List.length_cons, List.replicate_succ, List.map_cons,
      zeroVec, vecAdd, List.zipWith_cons_cons] at ihs ⊢
    rw [List.cons.injEq]
    exact ⟨by ring, ihs⟩

/-- Expansion of the residual sum of squares of the univariate fit into raw
sums. -/
theorem ssRes_expand (x yv : List ℚ) (b0 b1 : ℚ) (h : yv.length = x.length) :
    ((vecSub yv (x.map (fun t => b0 + b1 * t))).map (fun t => t ^ 2)).sum =
      dotp yv yv - 2 * b0 * yv.sum - 2 * b1 * dotp x yv + (x.length : ℚ) * b0 ^ 2
        + 2 * (b0 * b1) * x.sum + b1 ^ 2 * dotp x x := by
  induction x generalizing yv with
  | nil =>
    have : yv = [] := List.length_eq_zero.mp (by simpa using h)
    subst this
    simp [vecSub, dotp_nil_left]
  | cons t ts ih =>
    cases yv with
    | nil => simp at h
    | cons s ss =>
      have ihs := ih ss (by simpa using h)
      simp only [List.map_cons, vecSub, List.zipWith_cons_cons, List.sum_cons,
        dotp_cons, List.length_cons] at ihs ⊢
      rw [ihs]
      push_cast
      ring

set_option maxHeartbeats 2000000

/-- C4 (amended): for every single-predictor design `[1, x]` on a dataset with
at least two distinct predictor values and a non-constant response, the
closed-form univariate regression of `stats.linregress` (slope, intercept, and
correlation-derived R-squared) agrees exactly, over exact rational arithmetic,
with the general least-squares solver applied to the same design, the
R-squared of the latter computed as `1 - SS_res/SS_tot`. -/
theorem c4_closed_form_matches_solver (x yv β : List ℚ) (a b u v : ℚ)
    (hxy : yv.length = x.length)
    (hax : a ∈ x) (hbx : b ∈ x) (hab : a ≠ b)
    (huy : u ∈ yv) (hvy : v ∈ yv) (huv : u ≠ v)
    (h : lstsq x.length [onesVec x.length, x] yv = some β) :
    β = [(linregress x yv).2.1, (linregress x yv).1] ∧
    r_squared_of x.length [onesVec x.length, x] yv β = (linregress x yv).2.2 := by
  have hc : ∀ c ∈ [onesVec x.length, x], c.length = x.length := by
    intro c hcm
    rcases List.mem_cons.mp hcm with rfl | hcm2
    · simp [onesVec]
    · simp only [List.mem_singleton] at hcm2
      rw [hcm2]
  obtain ⟨hβl, hNE⟩ := lstsq_normalEq x.length _ yv β hc h
  obtain ⟨b0, b1, rfl⟩ := List.length_eq_two.mp (by simpa using hβl)
  have hone := hNE (onesVec x.length) (by simp)
  have hxeq := hNE x (by simp)
  rw [dotp_lincomb_right _ _ _ _ hc] at hone hxeq
  simp only [List.map_cons, List.map_nil] at hone hxeq
  rw [dotp_pair] at hone hxeq
  rw [dotp_onesVec_left x.length (onesVec x.length) (by simp [onesVec]), onesVec_sum,
    dotp_onesVec_left x.length x rfl, dotp_onesVec_left x.length yv hxy] at hone
  rw [dotp_onesVec_right x.length x rfl] at hxeq
  have hn0 : 0 < x.length := List.length_pos.mpr (List.ne_nil_of_mem hax)
  have hn : (x.length : ℚ) ≠ 0 := Nat.cast_ne_zero.mpr (Nat.pos_iff_ne_zero.mp hn0)
  have hny : (yv.length : ℚ) ≠ 0 := by rw [hxy]; exact hn
  have hsxx : dotp (x.map (fun t => t - meanQ x)) (x.map (fun t => t - meanQ x)) ≠ 0 :=
    ne_of_gt (centered_sq_sum_pos x (meanQ x) a b hax hbx hab)
  have hsyy : dotp (yv.map (fun t => t - meanQ yv)) (yv.map (fun t => t - meanQ yv)) ≠ 0 :=
    ne_of_gt (centered_sq_sum_pos yv (meanQ yv) u v huy hvy huv)
  have hsxx_s : dotp (x.map (fun t => t - meanQ x)) (x.map (fun t => t - meanQ x)) =
      dotp x x - x.sum ^ 2 / x.length := by
    rw [dotp_map_sub x x (meanQ x) (meanQ x) rfl, meanQ]
    field_simp
    ring
  have hsxy_s : dotp (x.map (fun t => t - meanQ x)) (yv.map (fun t => t - meanQ yv)) =
      dotp x yv - x.sum * yv.sum / x.length := by
    rw [dotp_map_sub x yv (meanQ x) (meanQ yv) hxy, meanQ, meanQ, hxy]
    field_simp
    ring
  have hsyy_s : dotp (yv.map (fun t => t - meanQ yv)) (yv.map (fun t => t - meanQ yv)) =
      dotp yv yv - yv.sum ^ 2 / yv.length := by
    rw [dotp_map_sub yv yv (meanQ yv) (meanQ yv) rfl, meanQ]
    field_simp
    ring
  have hsxx_n : (x.length : ℚ) *
      dotp (x.map (fun t => t - meanQ x)) (x.map (fun t => t - meanQ x)) =
      x.length * dotp x x - x.sum ^ 2 := by
    rw [hsxx_s]
    field_simp
    ring
  have hsxy_n : (x.length : ℚ) *
      dotp (x.map (fun t => t - meanQ x)) (yv.map (fun t => t - meanQ yv)) =
      x.length * dotp x yv - x.sum * yv.sum := by
    rw [hsxy_s]
    field_simp
    ring
  have hkeyn : (x.length : ℚ) *
      (dotp (x.map (fun t => t - meanQ x)) (x.map (fun t => t - meanQ x)) * b1) =
      x.length * dotp (x.map (fun t => t - meanQ x)) (yv.map (fun t => t - meanQ yv)) := by
    linear_combination b1 * hsxx_n - hsxy_n + (x.length : ℚ) * hxeq - x.sum * hone
  have hkey := mul_left_cancel₀ hn hkeyn
  have hb1 : b1 =
      dotp (x.map (fun t => t - meanQ x)) (yv.map (fun t => t - meanQ yv)) /
      dotp (x.map (fun t => t - meanQ x)) (x.map (fun t => t - meanQ x)) := by
    rw [← hkey, mul_div_cancel_left₀ _ hsxx]
  have hb0 : b0 = yv.sum / yv.length -
      dotp (x.map (fun t => t - meanQ x)) (yv.map (fun t => t - meanQ yv)) /
      dotp (x.map (fun t => t - meanQ x)) (x.map (fun t => t - meanQ x)) *
      (x.sum / x.length) := by
    rw [← hb1, hxy]
    field_simp
    linear_combination hone
  have hlin1 : (linregress x yv).1 =
      dotp (x.map (fun t => t - meanQ x)) (yv.map (fun t => t - meanQ yv)) /
      dotp (x.map (fun t => t - meanQ x)) (x.map (fun t => t - meanQ x)) := rfl
  have hlin2 : (linregress x yv).2.1 = yv.sum / yv.length -
      dotp (x.map (fun t => t - meanQ x)) (yv.map (fun t => t - meanQ yv)) /
      dotp (x.map (fun t => t - meanQ x)) (x.map (fun t => t - meanQ x)) *
      (x.sum / x.length) := rfl
  have hlin3 : (linregress x yv).2.2 =
      if dotp (x.map (fun t => t - meanQ x)) (x.map (fun t => t - meanQ x)) ≠ 0 ∧
          dotp (yv.map (fun t => t - meanQ yv)) (yv.map (fun t => t - meanQ yv)) ≠ 0 then
        dotp (x.map (fun t => t - meanQ x)) (yv.map (fun t => t - meanQ yv)) ^ 2 /
          (dotp (x.map (fun t => t - meanQ x)) (x.map (fun t => t - meanQ x)) *
            dotp (yv.map (fun t => t - meanQ yv)) (yv.map (fun t => t - meanQ yv)))
      else 0 := rfl
  constructor
  · rw [hb0, hb1, ← hlin2, ← hlin1]
  · have hsyT : (yv.map (fun t => (t - meanQ yv) ^ 2)).sum =
        dotp (yv.map (fun t => t - meanQ yv)) (yv.map (fun t => t - meanQ yv)) :=
      (dotp_self_map yv (fun t => t - meanQ yv)).symm
    have hsyy_n : (x.length : ℚ) *
        dotp (yv.map (fun t => t - meanQ yv)) (yv.map (fun t => t - meanQ yv)) =
        x.length * dotp yv yv - yv.sum ^ 2 := by
      rw [hsyy_s, hxy]
      field_simp
      ring
    have hres := ssRes_expand x yv b0 b1 hxy
    have hRn : (x.length : ℚ) *
        ((vecSub yv (x.map (fun t => b0 + b1 * t))).map (fun t => t ^ 2)).sum =
        x.length * dotp yv yv - 2 * x.length * b1 * dotp x yv
          + x.length * b1 ^ 2 * dotp x x - (yv.sum - x.sum * b1) ^ 2 := by
      linear_combination (x.length : ℚ) * hres +
        ((x.length : ℚ) * b0 + x.sum * b1 - yv.sum) * hone
    have hfn : ((x.length : ℚ)) ^ 2 *
        ((dotp (yv.map (fun t => t - meanQ yv)) (yv.map (fun t => t - meanQ yv)) -
            ((vecSub yv (x.map (fun t => b0 + b1 * t))).map (fun t => t ^ 2)).sum) *
          dotp (x.map (fun t => t - meanQ x)) (x.map (fun t => t - meanQ x))) =
        ((x.length : ℚ)) ^ 2 *
          dotp (x.map (fun t => t - meanQ x)) (yv.map (fun t => t - meanQ yv)) ^ 2 := by
      linear_combination
        ((x.length : ℚ) *
            dotp (x.map (fun t => t - meanQ x)) (x.map (fun t => t - meanQ x))) * hsyy_n -
        ((x.length : ℚ) *
            dotp (x.map (fun t => t - meanQ x)) (x.map (fun t => t - meanQ x))) * hRn +
        ((x.length : ℚ) *
            dotp (x.map (fun t => t - meanQ x)) (x.map (fun t => t - meanQ x)) * b1 ^ 2) *
          hsxx_n -
        (2 * (x.length : ℚ) *
            dotp (x.map (fun t => t - meanQ x)) (x.map (fun t => t - meanQ x)) * b1) *
          hsxy_n -
        ((x.length : ℚ) ^ 2 *
            (dotp (x.map (fun t => t - meanQ x)) (x.map (fun t => t - meanQ x)) * b1 -
              dotp (x.map (fun t => t - meanQ x)) (yv.map (fun t => t - meanQ yv)))) * hkey
    have hfinal := mul_left_cancel₀ (pow_ne_zero 2 hn) hfn
    rw [r_squared_of, lincomb_two x.length b0 b1 x rfl, hsyT, hlin3,
      if_pos ⟨hsxx, hsyy⟩, ← hfinal]
    field_simp
    ring

/-- Witness for the amended C4, at `x = (0, 1, 2)`, `y = (1, 2, 4)`: the solver
returns `(5/6, 3/2)`, which is exactly the closed-form intercept and slope, and
the two R-squared computations coincide. -/
theorem c4_witness :
    ([5/6, 3/2] : List ℚ) =
      [(linregress [0, 1, 2] [1, 2, 4]).2.1, (linregress [0, 1, 2] [1, 2, 4]).1] ∧
    r_squared_of 3 [onesVec 3, [0, 1, 2]] [1, 2, 4] [5/6, 3/2] =
      (linregress [0, 1, 2] [1, 2, 4]).2.2 :=
  c4_closed_form_matches_solver [0, 1, 2] [1, 2, 4] [5/6, 3/2] 0 1 1 2
    (by decide) (by decide) (by decide) (by decide) (by decide) (by decide)
    (by decide) (by decide)

/-- Counterexample to C4 as stated: on the design `[1, (0, 1)]` with the
constant response `(1, 1)` — two distinct predictor values, so the claim
applies — the solver fit exists and its `1 - SS_res/SS_tot` value is `1`
(the fit is exact and `SS_tot = 0`; the float code produces `0/0 = NaN` here),
while the closed-form path reports `r² = 0` (scipy's guard for zero variance),
so the two paths do not produce equal results. -/
theorem c4_counterexample :
    ((0 : ℚ) ∈ ([0, 1] : List ℚ)) ∧ ((1 : ℚ) ∈ ([0, 1] : List ℚ)) ∧ (0 : ℚ) ≠ 1 ∧
    lstsq 2 [onesVec 2, [0, 1]] [1, 1] = some [1, 0] ∧
    r_squared_of 2 [onesVec 2, [0, 1]] [1, 1] [1, 0] = 1 ∧
    (linregress [0, 1] [1, 1]).2.2 = 0 ∧ (1 : ℚ) ≠ 0 := by
  decide

/-! ## Concrete claims about the embedded pipeline -/

/-- C1: on the embedded 11-observation dataset, every model's least-squares
fit exists, and the R-squared of Model 3 (intercept + building + lot +
renovated) is at least that of Model 1 (intercept + lot) and at least that of
Model 2 (intercept + building + lot), each R-squared computed as
`1 - SS_res/SS_tot` from the least-squares fit of that model against the same
price vector. -/
theorem c1_r2_monotone :
    ((lstsq df.length [onesVec df.length, X_lot] y).isSome = true ∧
     (lstsq df.length X_multi_with_intercept y).isSome = true ∧
     (lstsq df.length X_with_reno_intercept y).isSome = true) ∧
    r_squared_lot_only ≤ r_squared_reno ∧ r_squared ≤ r_squared_reno := by
  decide

/-- Counterexample to C2: the design with the lot column duplicated is
rank-deficient — the nonzero coefficient vector `(0, 1, -1)` combines its
columns to zero — yet the fit still returns coefficients (`isSome`) instead of
failing; the program defines no `DegenerateFitError` and never inspects
conditioning. -/
theorem c2_counterexample :
    lincomb df.length [0, 1, -1] [onesVec df.length, X_lot, X_lot] =
      zeroVec df.length ∧
    ([0, 1, -1] : List ℚ) ≠ zeroVec 3 ∧
    (lstsq df.length [onesVec df.length, X_lot, X_lot] y).isSome = true := by
  decide

/-- C2 (amended): on the rank-deficient duplicated-lot design,
`np.linalg.lstsq(..., rcond=None)` returns the minimum-norm least-squares
coefficients — the Model 1 lot weight split evenly across the two duplicate
columns — rather than aborting the fit. -/
theorem c2_rank_deficient_fit_returns :
    lstsq df.length [onesVec df.length, X_lot, X_lot] y =
      some [13229419360992500/6210916541, 562342315000/6210916541,
        562342315000/6210916541] := by
  decide

/-- Counterexample to C3: `pd.DataFrame` performs no validation — a record
with a negative sale price is accepted and the table is produced anyway, so
loading does not fail on observations violating the positivity invariant. -/
theorem c3_counterexample :
    mkDataFrame [{ address := "bad", building_sqft := 100, lot_sqft := 100, price := -1, renovated := false, sale_date := "" }] =
      [{ address := "bad", building_sqft := 100, lot_sqft := 100, price := -1, renovated := false, sale_date := "" }] ∧
    ¬ (0 < ({ address := "bad", building_sqft := 100, lot_sqft := 100, price := -1, renovated := false, sale_date := "" } : Observation).price) := by
  decide

/-- C3 (amended): the loader never fails — `pd.DataFrame` returns its records
unchanged for every input, valid or not — and the embedded dataset happens to
satisfy the positivity invariant, so no invalid observation reaches any fit. -/
theorem c3_loader_never_fails :
    (∀ rows : List Observation, mkDataFrame rows = rows) ∧
    data.all (fun o => decide (0 < o.building_sqft) && decide (0 < o.lot_sqft) &&
      decide (0 < o.price)) = true :=
  ⟨fun _ => rfl, by decide⟩

/-- C5: for every baseline value and every delta, the percentage adjustment is
`(delta / 500) * 0.01 * baseline`; it is exactly linear in the delta, zero at
delta 0, and odd in the delta. -/
theorem c5_pct_adjustment_linear (base d : ℚ) :
    pct_adjustment d base = d / 500 * 0.01 * base ∧
    pct_adjustment (2 * d) base = 2 * pct_adjustment d base ∧
    pct_adjustment 0 base = 0 ∧
    pct_adjustment (-500) base = -(pct_adjustment 500 base) := by
  refine ⟨rfl, ?_, ?_, ?_⟩ <;> · simp only [pct_adjustment]; ring

/-- C6: every fitted model of the pipeline reports an R-squared equal to
`1 - SS_res/SS_tot`, with `SS_res` the sum of squared differences between
observed and predicted prices and `SS_tot` the squared deviations from the
dataset's mean price.  For Models 2 and 3 that is the computation itself; for
Model 1 the reported `r_value²` equals the same ratio evaluated on Model 1's
fitted line. -/
theorem c6_r_squared_formula :
    r_value_sq = 1 - ((vecSub y y_pred_lot).map (fun t => t ^ 2)).sum / ss_tot ∧
    r_squared = 1 - ss_res / ss_tot ∧
    r_squared_reno = 1 - ss_res_reno / ss_tot_reno :=
  ⟨by decide, rfl, rfl⟩

/-- C7: Model 3 assigns exactly one predicted value, one residual and one
percent error to every observation; each residual is actual minus predicted
(not predicted minus actual) and each percent error is
`residual / actual * 100`. -/
theorem c7_residuals :
    residuals_values.length = data.length ∧
    y_pred_reno.length = data.length ∧
    pct_errors.length = data.length ∧
    ((List.range data.length).all (fun i =>
      decide (residuals_values.getD i 0 = y.getD i 0 - y_pred_reno.getD i 0) &&
      decide (pct_errors.getD i 0 =
        residuals_values.getD i 0 / y.getD i 0 * 100))) = true := by
  decide

/-- C9: the recommended adjustment is exactly Model 3's fitted lot
coefficient, and the categorical verdict is `withinRange` precisely when the
tested coefficient lies in `[100, 200]`, `belowRange` precisely when it is
below `100`, and `aboveRange` precisely when it exceeds `200`. -/
theorem c9_recommendation_verdict :
    recommended_adjustment = coefficients_reno.getD 2 0 ∧
    ∀ c : ℚ, (verdict c = Verdict.withinRange ↔ 100 ≤ c ∧ c ≤ 200) ∧
      (verdict c = Verdict.belowRange ↔ c < 100) ∧
      (verdict c = Verdict.aboveRange ↔ 200 < c) := by
  refine ⟨rfl, fun c => ?_⟩
  rw [verdict]
  split_ifs with h1 h2
  · exact ⟨⟨fun _ => h1, fun _ => rfl⟩,
      ⟨fun h => absurd h (by simp), fun h => absurd h (not_lt.mpr h1.1)⟩,
      ⟨fun h => absurd h (by simp), fun h => absurd h (not_lt.mpr h1.2)⟩⟩
  · exact ⟨⟨fun h => absurd h (by simp), fun h => absurd h2 (not_lt.mpr h.1)⟩,
      ⟨fun _ => h2, fun _ => rfl⟩,
      ⟨fun h => absurd h (by simp), fun h => absurd h (not_lt.mpr (by linarith))⟩⟩
  · have hc : 200 < c := by
      rcases not_and_or.mp h1 with h3 | h3
      · exact absurd (le_of_not_lt h2) (by linarith [lt_of_not_le h3])
      · exact lt_of_not_le h3
    exact ⟨⟨fun h => absurd h (by simp), fun h => absurd h.2 (not_le.mpr hc)⟩,
      ⟨fun h => absurd h (by simp), fun h => absurd h h2⟩,
      ⟨fun _ => hc, fun _ => rfl⟩⟩

/-- C10: the embedded dataset literal satisfies the spec's preconditions: it
has 11 observations, every observation has positive building area, lot area
and price, and the dataset is at least as large as the richest model's
parameter count (4, the width of the Model 3 design). -/
theorem c10_dataset_invariants :
    data.length = 11 ∧
    data.all (fun o => decide (0 < o.building_sqft) && decide (0 < o.lot_sqft) &&
      decide (0 < o.price)) = true ∧
    X_with_reno_intercept.length = 4 ∧
    X_with_reno_intercept.length ≤ data.length := by
  decide

end HousingCalc
